import Mathlib

/-!
Verification of the 123linkjson-Manager core: the link codec
(`src/utils/link_parser.py`), the JSON record-set engine
(`src/models/json_data.py`, `src/utils/json_handler.py`,
`src/utils/file_sorter.py`) and the splitter (`src/utils/json_splitter.py`).

Python strings are modelled as lists of characters (`Str`), Python's
`str.split`, `str.strip`, `str.replace`, `str.startswith` and friends as the
corresponding executable functions below.  Python whitespace stripping and
case folding are modelled on the ASCII range, which covers every string the
source manipulates in the claims under study.
-/

namespace LinkJson

/-- A Python string, modelled as its list of characters. -/
abbrev Str := List Char

/-- ASCII whitespace, the characters removed by Python `str.strip()`. -/
def isSpace (c : Char) : Bool :=
  c = ' ' || c = '\t' || c = '\n' || c = '\x0d' || c = '\x0b' || c = '\x0c'

/-- Python `s.lstrip()`. -/
def lstrip (s : Str) : Str := s.dropWhile isSpace

/-- Python `s.rstrip()`. -/
def rstrip (s : Str) : Str := (s.reverse.dropWhile isSpace).reverse

/-- Python `s.strip()`. -/
def strip (s : Str) : Str := rstrip (lstrip s)

/-- Python `s.lstrip(c)` for a single character `c`. -/
def lstripChar (c : Char) (s : Str) : Str := s.dropWhile (fun x => x = c)

/-- Python `s.rstrip(c)` for a single character `c`. -/
def rstripChar (c : Char) (s : Str) : Str := (s.reverse.dropWhile (fun x => x = c)).reverse

/-- Python `s.strip(c)` for a single character `c`. -/
def stripChar (c : Char) (s : Str) : Str := rstripChar c (lstripChar c s)

/-- Python `s.replace('\\', '/')`, the path-separator normalization. -/
def replaceBackslash (s : Str) : Str := s.map (fun c => if c = '\\' then '/' else c)

/-- Python `s.startswith(t)`. -/
def startsWith (t s : Str) : Bool := t.isPrefixOf s

/-- Helper for `splitOn`: the accumulator holds the current field reversed. -/
def splitOnAux (sep : Char) : Str → Str → List Str
  | [], acc => [acc.reverse]
  | c :: rest, acc =>
    if c = sep then acc.reverse :: splitOnAux sep rest []
    else splitOnAux sep rest (c :: acc)

/-- Python `s.split(sep)` for a single-character separator (no maxsplit). -/
def splitOn (sep : Char) (s : Str) : List Str := splitOnAux sep s []

/-- Split a string at the first occurrence of `sep`, if any. -/
def splitFirst (sep : Char) : Str → Option (Str × Str)
  | [] => none
  | c :: rest =>
    if c = sep then some ([], rest)
    else (splitFirst sep rest).map (fun p => (c :: p.1, p.2))

/-- Python `s.split(sep, 2)`: at most two splits, so one to three fields. -/
def split2 (sep : Char) (s : Str) : List Str :=
  match splitFirst sep s with
  | none => [s]
  | some (a, r) =>
    match splitFirst sep r with
    | none => [a, r]
    | some (b, r2) => [a, b, r2]

/-- Python `sep.join(parts)` for a single-character separator. -/
def joinSep (sep : Char) : List Str → Str
  | [] => []
  | [s] => s
  | s :: rest => s ++ sep :: joinSep sep rest

/-- Python `s.isdigit()` on the ASCII range: non-empty and all decimal digits. -/
def isDigitStr (s : Str) : Bool := !s.isEmpty && s.all (fun c => '0' ≤ c && c ≤ '9')

/-- Numeric value of a decimal digit string. -/
def digitsVal (s : Str) : Nat := s.foldl (fun n c => 10 * n + (c.toNat - 48)) 0

/-- Whether a string is in the (modelled) domain of Python `int()`:
optionally signed decimal digits surrounded by whitespace.  Python `int()`
raises outside this domain; theorems about totals therefore carry this
predicate as a hypothesis. -/
def pyIntOk (s : Str) : Bool :=
  let t := strip s
  isDigitStr t ||
    (match t with
     | c :: r => (c = '+' || c = '-') && isDigitStr r
     | [] => false)

/-- Python `int(s)` on its modelled domain (see `pyIntOk`). -/
def intVal (s : Str) : Int :=
  match strip s with
  | '-' :: r => -(digitsVal r : Int)
  | '+' :: r => (digitsVal r : Int)
  | t => (digitsVal t : Int)

/-- Value of an ASCII hex digit, if it is one. -/
def hexVal (c : Char) : Option Nat :=
  if '0' ≤ c && c ≤ '9' then some (c.toNat - 48)
  else if 'a' ≤ c && c ≤ 'f' then some (c.toNat - 87)
  else if 'A' ≤ c && c ≤ 'F' then some (c.toNat - 55)
  else none

/-- `urllib.parse.unquote`, modelled for single-byte escapes: each valid
`%hh` pair decodes to the character with that code, invalid escapes are left
verbatim (as Python does).  Multi-byte UTF-8 sequences are outside the model. -/
def unquote : Str → Str
  | [] => []
  | '%' :: a :: b :: rest =>
    match hexVal a, hexVal b with
    | some x, some y => Char.ofNat (16 * x + y) :: unquote rest
    | _, _ => '%' :: unquote (a :: b :: rest)
  | c :: rest => c :: unquote rest

/-- One file record as produced by the link parser: `path`, `size`, `etag`,
all Python strings (source: dicts built in `link_parser.py`). -/
structure FileRec where
  path : Str
  size : Str
  etag : Str
deriving DecidableEq, Repr

/-! ## Link codec — `src/utils/link_parser.py` -/

/-- The tag `"123FSLink"` tested by `parse_link`'s `startswith`. -/
def tagFS9 : Str := "123FSLink".toList

/-- The tag `"123FSLinkV2"` emitted by `_generate_fslink`. -/
def tagFSV2 : Str := "123FSLinkV2".toList

/-- The tag `"123FLCPV2"`. -/
def tagFLCP : Str := "123FLCPV2".toList

/-- Error message `"链接不能为空"` (link cannot be empty). -/
def msgEmpty : Str := "链接不能为空".toList

/-- Error message of `parse_link` for an unrecognized tag. -/
def msgInvalidTag : Str := "无效链接格式: 必须以123FSLink或123FLCPV2开头".toList

/-- Error message `"未解析到有效文件信息"` (no valid file info parsed). -/
def msgNoValid : Str := "未解析到有效文件信息".toList

/-- Error message `"无效FLCPV2格式: 缺少必要部分"` (FLCPV2 missing parts). -/
def msgFlcpMissing : Str := "无效FLCPV2格式: 缺少必要部分".toList

/-- `validate_link_format` message for a wrong tag. -/
def msgMustStart : Str := "必须以123FSLink或123FLCPV2开头".toList

/-- `validate_link_format` message `"缺少文件信息部分"` (missing file info part). -/
def msgMissingInfo : Str := "缺少文件信息部分".toList

/-- `validate_link_format` message `"文件大小必须为数字"` (size must be digits). -/
def msgSizeDigit : Str := "文件大小必须为数字".toList

/-- `validate_link_format` message `"文件信息格式错误"` (file info malformed). -/
def msgFmtErr : Str := "文件信息格式错误".toList

/-- One iteration of `_parse_fslink`'s loop: `etag, size, path = part.split('#', 2)`
succeeds only when the split yields three fields, otherwise the `ValueError`
is caught and the token skipped. -/
def fslinkEntry (part : Str) : Option FileRec :=
  match split2 '#' part with
  | [etag, size, path] =>
    some ⟨strip (replaceBackslash path), strip size, strip etag⟩
  | _ => none

/-- `LinkParser._parse_fslink`: split on `'$'`, skip the tag, skip blank
tokens, parse each remaining token, and report an error iff no file parsed. -/
def parse_fslink (link : Str) : List FileRec × Str :=
  let files := (splitOn '$' link).tail.filterMap
    (fun part => if strip part = [] then none else fslinkEntry part)
  (files, if files = [] then msgNoValid else [])

/-- One iteration of `_parse_flcp_link`'s loop.  The source also computes
`base_path.rstrip('/')` into `clean_base` but never uses it; the record path
is the percent-decoded text after the last `'#'` of the third field. -/
def flcpEntry (part : Str) : Option FileRec :=
  match split2 '#' part with
  | [etag, size, fullPathPart] =>
    let name := unquote (strip ((splitOn '#' fullPathPart).getLastD []))
    some ⟨replaceBackslash name, strip size, strip etag⟩
  | _ => none

/-- `LinkParser._parse_flcp_link`.  `base_path` (`parts[1]`, slash-normalized
and `'/'`-stripped in the source) is captured but does not flow into any
produced record. -/
def parse_flcp_link (link : Str) : List FileRec × Str :=
  let parts := splitOn '$' link
  if parts.length < 3 then ([], msgFlcpMissing)
  else
    let files := (parts.drop 2).filterMap
      (fun part => if strip part = [] then none else flcpEntry part)
    (files, if files = [] then msgNoValid else [])

/-- `LinkParser.parse_link`: dispatch on the tag. -/
def parse_link (link : Str) : List FileRec × Str :=
  if link = [] then ([], msgEmpty)
  else if startsWith tagFS9 link then parse_fslink link
  else if startsWith tagFLCP link then parse_flcp_link link
  else ([], msgInvalidTag)

/-- `LinkParser._generate_fslink`. -/
def generate_fslink (files : List FileRec) : Str :=
  tagFSV2 ++ files.flatMap
    (fun f => '$' :: (f.etag ++ '#' :: (f.size ++ '#' :: strip (replaceBackslash f.path))))

/-- `LinkParser._generate_flcp_link`. -/
def generate_flcp_link (files : List FileRec) (basePath : Str) : Str :=
  let base := stripChar '/' (replaceBackslash basePath)
  tagFLCP ++ '$' :: base ++ files.flatMap
    (fun f =>
      let path := stripChar '/' (replaceBackslash f.path)
      let name := if startsWith base path then lstripChar '/' (path.drop base.length) else path
      '$' :: (f.etag ++ '#' :: (f.size ++ '#' :: name)))

/-- `os.path.commonprefix`: character-wise longest common prefix of two strings. -/
def lcp2 : Str → Str → Str
  | a :: as, b :: bs => if a = b then a :: lcp2 as bs else []
  | _, _ => []

/-- `os.path.commonprefix` over a list (empty list gives `""`). -/
def commonPrefixAll : List Str → Str
  | [] => []
  | p :: ps => ps.foldl lcp2 p

/-- `LinkParser._find_common_path`: normalize, take the character-wise common
prefix, then cut it back to the last `/` boundary (or `""` if it has none). -/
def find_common_path (paths : List Str) : Str :=
  if paths = [] then []
  else
    let normalized := paths.map (fun p => stripChar '/' (replaceBackslash p))
    let common := commonPrefixAll normalized
    if '/' ∈ common then (((common.reverse.dropWhile (fun c => c ≠ '/')).drop 1)).reverse
    else []

/-- `LinkParser.generate_link`: FLCP form when a common directory exists,
FSLink form otherwise. -/
def generate_link (files : List FileRec) : Str :=
  if files = [] then tagFSV2
  else
    let common := find_common_path (files.map FileRec.path)
    if common = [] then generate_fslink files else generate_flcp_link files common

/-- The per-token loop of `validate_link_format`: empty tokens are skipped,
a token that does not split into three `'#'` fields is a format error, a
non-digit size field is a size error. -/
def checkParts : List Str → Bool × Str
  | [] => (true, [])
  | part :: rest =>
    if part = [] then checkParts rest
    else
      match split2 '#' part with
      | [_, size, _] =>
        if isDigitStr size then checkParts rest else (false, msgSizeDigit)
      | _ => (false, msgFmtErr)

/-- `LinkParser.validate_link_format`. -/
def validate_link_format (link : Str) : Bool × Str :=
  if link = [] then (false, msgEmpty)
  else if !(startsWith tagFS9 link || startsWith tagFLCP link) then (false, msgMustStart)
  else
    let parts := splitOn '$' link
    if parts.length < 2 then (false, msgMissingInfo)
    else checkParts parts.tail

/-! ## JSON document model — `src/models/json_data.py`, `src/utils/file_sorter.py`,
`src/utils/json_splitter.py`

The loaded document is a Python dict.  The code reads and writes a fixed set
of top-level keys (`files`, `totalFilesCount`, `totalSize`, `commonPath`,
`formattedTotalSize`); every other key is only ever carried along by
`dict.copy` / `copy.deepcopy`, so the remaining keys are modelled by the
opaque association list `extra`.  A record is modelled by its `path`, `size`
and `etag` entries (the only per-file keys the core reads); `size` stays a
string and Python's `int(size)` is `intVal` (see `pyIntOk`).  An absent
`commonPath` and `commonPath == ""` are modelled alike as `[]`, which is
faithful to every read site (`json_data.get('commonPath') or ''`). -/

structure JsonDoc where
  files : List FileRec
  totalFilesCount : Int
  totalSize : Int
  commonPath : Str
  formattedTotalSize : Option Str
  extra : List (Str × Str)
deriving DecidableEq, Repr

/-- Python ASCII lowercasing, for `path.lower()` sort keys. -/
def lowerStr (s : Str) : Str := s.map Char.toLower

/-- Lexicographic comparison of strings by character code, as Python `<=`
on strings (restricted to the code points in play). -/
def strLe : Str → Str → Bool
  | [], _ => true
  | _ :: _, [] => false
  | a :: as, b :: bs => if a = b then strLe as bs else decide (a < b)

/-- `file_sorter.sort_json_data`: copy the dict, replacing `files` with the
list sorted by `path.lower()` (Python's stable `sorted`). -/
def sort_json_data (d : JsonDoc) : JsonDoc :=
  { d with files := d.files.mergeSort (fun a b => strLe (lowerStr a.path) (lowerStr b.path)) }

/-- `JsonData.update_totals`: recompute `totalFilesCount` and `totalSize`
(`sum(int(file['size']) for file in self.files)`). -/
def update_totals (d : JsonDoc) : JsonDoc :=
  { d with totalFilesCount := (d.files.length : Int),
           totalSize := (d.files.map (fun f => intVal f.size)).sum }

/-- The dedup-append loop of `JsonData.add_files` (and of the merge loop):
append each new file whose path is not already present, counting additions.
The `existing_paths` set is exactly the set of paths of the accumulated list. -/
def addLoop : List FileRec → List FileRec → List FileRec × Nat
  | cur, [] => (cur, 0)
  | cur, f :: rest =>
    if f.path ∈ cur.map FileRec.path then addLoop cur rest
    else
      let r := addLoop (cur ++ [f]) rest
      (r.1, r.2 + 1)

/-- `JsonData.add_files`: dedup-append, re-sort, recompute totals; returns
the new document and the count of files actually added. -/
def add_files (d : JsonDoc) (newFiles : List FileRec) : JsonDoc × Nat :=
  let r := addLoop d.files newFiles
  (update_totals (sort_json_data { d with files := r.1 }), r.2)

/-- `JsonData.remove_files`: on a non-empty path list, drop every record
whose path is in the list, recompute totals, and return
`len(set(paths))` — the number of distinct requested paths.  An empty path
list returns the document untouched with count `0`. -/
def remove_files (d : JsonDoc) (paths : List Str) : JsonDoc × Nat :=
  if paths = [] then (d, 0)
  else
    (update_totals { d with files := d.files.filter (fun f => !(f.path ∈ paths)) },
     paths.dedup.length)

/-- `JsonData.merge_json_files`, with the file reading and validation
abstracted away: the input is the list of documents that were successfully
read and validated (the source skips the others).  Builds a fresh document
`{"files": [], "totalFilesCount": 0, "totalSize": 0}`, dedup-appends every
input file in order, and returns `(none, 0)` when no file survives,
otherwise the sorted document with recomputed totals and the added count. -/
def merge_json_files (docs : List JsonDoc) : Option JsonDoc × Nat :=
  let r := addLoop [] (docs.flatMap JsonDoc.files)
  if r.1 = [] then (none, 0)
  else
    let merged : JsonDoc :=
      { files := r.1, totalFilesCount := 0, totalSize := 0,
        commonPath := [], formattedTotalSize := none, extra := [] }
    (some (update_totals (sort_json_data merged)), r.2)

/-! ## Splitter — `src/utils/json_splitter.py` -/

/-- Slicing loop of `split_json_by_count`: `files[i:i+chunk_size]` for
`i = 0, chunk_size, ...`.  The fuel argument (initially the list length)
makes the recursion structural; it never runs out when `0 < n`. -/
def chunksOfAux (n : Nat) : Nat → List FileRec → List (List FileRec)
  | 0, _ => []
  | _, [] => []
  | fuel + 1, l => l.take n :: chunksOfAux n fuel (l.drop n)

/-- The chunk slices of `split_json_by_count` for a positive chunk size. -/
def chunksOf (n : Nat) (l : List FileRec) : List (List FileRec) :=
  chunksOfAux n l.length l

/-- One output chunk of `split_json_by_count`: the base metadata (document
minus `files`, `totalFilesCount`, `totalSize`, `formattedTotalSize`) plus
the slice and its freshly computed count and size. -/
def countChunk (d : JsonDoc) (slice : List FileRec) : JsonDoc :=
  { d with files := slice,
           totalFilesCount := (slice.length : Int),
           totalSize := (slice.map (fun f => intVal f.size)).sum,
           formattedTotalSize := none }

/-- `split_json_by_count`: raises `ValueError('chunk_size必须为正整数')` on a
non-positive chunk size, modelled as `Except.error`. -/
def split_json_by_count (d : JsonDoc) (chunkSize : Int) : Except Str (List JsonDoc) :=
  if chunkSize ≤ 0 then .error "chunk_size必须为正整数".toList
  else .ok ((chunksOf chunkSize.toNat d.files).map (countChunk d))

/-- The normalized common-path of the splitter:
`(json_data.get('commonPath') or '').rstrip('/') + ('/' if ... else '')`. -/
def normCp (cp : Str) : Str := if cp = [] then [] else rstripChar '/' cp ++ ['/']

/-- The reserved group key `'_root_'` of `split_json_by_folder`. -/
def rootKey : Str := "_root_".toList

/-- `[p for p in full_path.split('/') if p]`: the non-empty segments of a
record's full path `common_path + file['path']`. -/
def partsOf (pre : Str) (f : FileRec) : List Str :=
  (splitOn '/' (pre ++ f.path)).filter (fun s => !s.isEmpty)

/-- The group key of one record in `split_json_by_folder`: the first `level`
directory segments joined with `'/'`, or `'_root_'` when the directory is
shallower than `level`. -/
def groupKeyOf (pre : Str) (level : Nat) (f : FileRec) : Str :=
  let dirParts := (partsOf pre f).dropLast
  if level ≤ dirParts.length then joinSep '/' (dirParts.take level) else rootKey

/-- `folders.setdefault(group_key, []).append(file)`: append to the group
with this key, or create it at the end, preserving insertion order. -/
def insertGroup (k : Str) (f : FileRec) : List (Str × List FileRec) → List (Str × List FileRec)
  | [] => [(k, [f])]
  | (k2, fs) :: rest =>
    if k2 = k then (k2, fs ++ [f]) :: rest else (k2, fs) :: insertGroup k f rest

/-- The grouping loop of `split_json_by_folder` (a Python dict preserves
insertion order). -/
def groupFiles (key : FileRec → Str) (files : List FileRec) : List (Str × List FileRec) :=
  files.foldl (fun gs f => insertGroup (key f) f gs) []

/-- The path rewrite of a non-root group member:
`(common_path + f['path'])[len(group_key):].lstrip('/')`. -/
def rewriteFile (pre k : Str) (f : FileRec) : FileRec :=
  { f with path := lstripChar '/' ((pre ++ f.path).drop k.length) }

/-- One output chunk of `split_json_by_folder`: the `'_root_'` group keeps
the normalized common path and its files verbatim; any other group gets
`group_key + '/'` as common path and its members' paths rewritten relative
to it.  Count and size are recomputed; `formattedTotalSize` was popped from
the base metadata. -/
def folderChunk (d : JsonDoc) (pre : Str) (g : Str × List FileRec) : JsonDoc :=
  let ncp := if g.1 = rootKey then pre else g.1 ++ ['/']
  let nfiles := if g.1 = rootKey then g.2 else g.2.map (rewriteFile pre g.1)
  { d with files := nfiles,
           commonPath := ncp,
           totalFilesCount := (nfiles.length : Int),
           totalSize := (nfiles.map (fun f => intVal f.size)).sum,
           formattedTotalSize := none }

/-- `split_json_by_folder`: raises `ValueError('level必须为正整数')` on a
non-positive level, modelled as `Except.error`. -/
def split_json_by_folder (d : JsonDoc) (level : Int) : Except Str (List JsonDoc) :=
  if level ≤ 0 then .error "level必须为正整数".toList
  else
    let pre := normCp d.commonPath
    .ok ((groupFiles (groupKeyOf pre level.toNat) d.files).map (folderChunk d pre))

/-! ## JSON shape validator — `src/utils/json_handler.py`

`is_valid_123_json` also normalizes the accepted shapes in place; only the
returned `(valid, message)` pair is modelled here, which the normalization
never affects (the accepting branches always return `(True, "")`). -/

/-- A decoded JSON value. -/
inductive JVal where
  | jNull
  | jBool (b : Bool)
  | jInt (n : Int)
  | jStr (s : String)
  | jArr (elems : List JVal)
  | jObj (fields : List (String × JVal))

/-- Python `d[k]` / `k in d` on a JSON object, modelled on objects with
distinct keys (first binding wins). -/
def jlookup (fields : List (String × JVal)) (k : String) : Option JVal :=
  (fields.find? (fun p => p.1 = k)).map Prod.snd

/-- `isinstance(v, list)`. -/
def jIsList : Option JVal → Bool
  | some (.jArr _) => true
  | _ => false

/-- The per-file required-field check of the strict-canonical branch
(index `i` is 0-based; messages use the 1-based index). -/
def checkFile (i : Nat) : JVal → Bool × String
  | .jObj f =>
    if (jlookup f "path").isNone then (false, "文件 #" ++ toString (i + 1) ++ " 缺少必要字段: path")
    else if (jlookup f "size").isNone then (false, "文件 #" ++ toString (i + 1) ++ " 缺少必要字段: size")
    else if (jlookup f "etag").isNone then (false, "文件 #" ++ toString (i + 1) ++ " 缺少必要字段: etag")
    else (true, "")
  | _ => (false, "文件 #" ++ toString (i + 1) ++ " 必须是字典")

/-- The strict-canonical per-file loop. -/
def checkFiles : List JVal → Nat → Bool × String
  | [], _ => (true, "")
  | f :: rest, i =>
    match checkFile i f with
    | (true, _) => checkFiles rest (i + 1)
    | r => r

/-- `json_handler.is_valid_123_json`, restricted to its returned pair:
new-FastLink shape (a `files` list plus a version marker) and legacy
`list` shape are accepted outright; otherwise the strict-canonical checks
run in source order — required top-level fields first, then the `files`
type, then per-file fields. -/
def is_valid_123_json (data : List (String × JVal)) : Bool × String :=
  if jIsList (jlookup data "files") &&
     ((jlookup data "scriptVersion").isSome || (jlookup data "exportVersion").isSome) then
    (true, "")
  else if jIsList (jlookup data "list") then
    (true, "")
  else if (jlookup data "files").isNone then (false, "缺少必要字段: files")
  else if (jlookup data "totalFilesCount").isNone then (false, "缺少必要字段: totalFilesCount")
  else if (jlookup data "totalSize").isNone then (false, "缺少必要字段: totalSize")
  else
    match jlookup data "files" with
    | some (.jArr files) => checkFiles files 0
    | _ => (false, "files字段必须是列表")

/-! ## Splitting and stripping lemmas -/

theorem splitOnAux_append (sep : Char) (a : Str) (s acc : Str) (h : sep ∉ a) :
    splitOnAux sep (a ++ s) acc = splitOnAux sep s (a.reverse ++ acc) := by
  induction a generalizing acc with
  | nil => simp
  | cons c t ih =>
    have hc : c ≠ sep := fun hc => h (hc ▸ List.mem_cons_self c t)
    have ht : sep ∉ t := fun hm => h (List.mem_cons_of_mem c hm)
    simp [splitOnAux, hc, ih _ ht]

theorem splitOn_nosep (sep : Char) (s : Str) (h : sep ∉ s) : splitOn sep s = [s] := by
  have := splitOnAux_append sep s [] [] h
  simpa [splitOn, splitOnAux] using this

theorem splitOn_sep_cons (sep : Char) (a b : Str) (h : sep ∉ a) :
    splitOn sep (a ++ sep :: b) = a :: splitOn sep b := by
  have := splitOnAux_append sep a (sep :: b) [] h
  simpa [splitOn, splitOnAux] using this

theorem splitOnAux_sep_append (sep : Char) (a b acc : Str) :
    splitOnAux sep (a ++ sep :: b) acc = splitOnAux sep a acc ++ splitOn sep b := by
  induction a generalizing acc with
  | nil => simp [splitOnAux, splitOn]
  | cons c t ih =>
    by_cases hc : c = sep <;> simp [splitOnAux, hc, ih]

theorem splitOn_sep_append (sep : Char) (a b : Str) :
    splitOn sep (a ++ sep :: b) = splitOn sep a ++ splitOn sep b :=
  splitOnAux_sep_append sep a b []

theorem splitOnAux_ne_nil (sep : Char) (s acc : Str) : splitOnAux sep s acc ≠ [] := by
  induction s generalizing acc with
  | nil => simp [splitOnAux]
  | cons c t ih => by_cases hc : c = sep <;> simp [splitOnAux, hc, ih]

theorem splitOn_ne_nil (sep : Char) (s : Str) : splitOn sep s ≠ [] :=
  splitOnAux_ne_nil sep s []

theorem joinSep_splitOnAux (sep : Char) (s acc : Str) :
    joinSep sep (splitOnAux sep s acc) = acc.reverse ++ s := by
  induction s generalizing acc with
  | nil => simp [splitOnAux, joinSep]
  | cons c t ih =>
    by_cases hc : c = sep
    · have h2 : joinSep sep (acc.reverse :: splitOnAux sep t []) =
          acc.reverse ++ sep :: joinSep sep (splitOnAux sep t []) := by
        cases h : splitOnAux sep t [] with
        | nil => exact absurd h (splitOnAux_ne_nil sep t [])
        | cons x xs => simp [joinSep]
      simp only [splitOnAux, if_pos hc, h2]
      have h3 := ih []
      simp only [List.reverse_nil, List.nil_append] at h3
      rw [h3, hc]
    · simp only [splitOnAux, if_neg hc, ih]
      simp

theorem joinSep_splitOn (sep : Char) (s : Str) : joinSep sep (splitOn sep s) = s := by
  simpa [splitOn] using joinSep_splitOnAux sep s []

theorem not_sep_mem_splitOnAux (sep : Char) (s acc x : Str)
    (hacc : sep ∉ acc) (hx : x ∈ splitOnAux sep s acc) : sep ∉ x := by
  induction s generalizing acc with
  | nil =>
    simp only [splitOnAux, List.mem_singleton] at hx
    subst hx; simpa using hacc
  | cons c t ih =>
    by_cases hc : c = sep
    · simp only [splitOnAux, if_pos hc, List.mem_cons] at hx
      rcases hx with hx | hx
      · subst hx; simpa using hacc
      · exact ih [] (by simp) hx
    · simp only [splitOnAux, if_neg hc] at hx
      refine ih (c :: acc) ?_ hx
      simp only [List.mem_cons, not_or]
      exact ⟨fun h => hc h.symm, hacc⟩

theorem not_sep_mem_splitOn (sep : Char) (s x : Str) (hx : x ∈ splitOn sep s) : sep ∉ x :=
  not_sep_mem_splitOnAux sep s [] x (by simp) hx

theorem splitOn_joinSep (sep : Char) (parts : List Str) (hne : parts ≠ [])
    (h : ∀ x ∈ parts, sep ∉ x) : splitOn sep (joinSep sep parts) = parts := by
  induction parts with
  | nil => exact absurd rfl hne
  | cons p rest ih =>
    cases rest with
    | nil => exact splitOn_nosep sep p (h p (by simp))
    | cons q t =>
      have hp : sep ∉ p := h p (by simp)
      have : joinSep sep (p :: q :: t) = p ++ sep :: joinSep sep (q :: t) := by simp [joinSep]
      rw [this, splitOn_sep_cons sep _ _ hp,
        ih (by simp) (fun x hx => h x (List.mem_cons_of_mem p hx))]

theorem splitFirst_nosep (sep : Char) (s : Str) (h : sep ∉ s) : splitFirst sep s = none := by
  induction s with
  | nil => rfl
  | cons c t ih =>
    have hc : c ≠ sep := fun hc => h (hc ▸ List.mem_cons_self c t)
    simp [splitFirst, hc, ih (fun hm => h (List.mem_cons_of_mem c hm))]

theorem splitFirst_append (sep : Char) (a b : Str) (h : sep ∉ a) :
    splitFirst sep (a ++ sep :: b) = some (a, b) := by
  induction a with
  | nil => simp [splitFirst]
  | cons c t ih =>
    have hc : c ≠ sep := fun hc => h (hc ▸ List.mem_cons_self c t)
    simp [splitFirst, hc, ih (fun hm => h (List.mem_cons_of_mem c hm))]

theorem split2_exact (sep : Char) (e m p : Str) (he : sep ∉ e) (hm : sep ∉ m) :
    split2 sep (e ++ sep :: (m ++ sep :: p)) = [e, m, p] := by
  simp [split2, splitFirst_append sep e _ he, splitFirst_append sep m p hm]

theorem lstrip_cons_of_not_space (c : Char) (r : Str) (h : isSpace c = false) :
    lstrip (c :: r) = c :: r := by
  simp [lstrip, List.dropWhile_cons, h]

theorem head_not_space_of_lstrip (c : Char) (r : Str) (h : lstrip (c :: r) = c :: r) :
    isSpace c = false := by
  by_contra hc
  have hc' : isSpace c = true := by revert hc; cases isSpace c <;> simp
  have : lstrip (c :: r) = lstrip r := by simp [lstrip, List.dropWhile_cons, hc']
  rw [this] at h
  have := (List.dropWhile_sublist (l := r) isSpace).length_le
  rw [show r.dropWhile isSpace = lstrip r from rfl, h] at this
  simp at this

theorem rstrip_eq_self_iff (s : Str) : rstrip s = s ↔ lstrip s.reverse = s.reverse := by
  constructor
  · intro h
    have := congrArg List.reverse h
    simpa [rstrip, lstrip] using this
  · intro h
    have h' : s.reverse.dropWhile isSpace = s.reverse := h
    simp [rstrip, h']

/-- A token of the form `e#m#p` with clean outer fields is unchanged by `strip`. -/
theorem strip_sandwich (e m p : Str) (he : lstrip e = e) (hp : rstrip p = p) :
    strip (e ++ '#' :: (m ++ '#' :: p)) = e ++ '#' :: (m ++ '#' :: p) := by
  have hl : lstrip (e ++ '#' :: (m ++ '#' :: p)) = e ++ '#' :: (m ++ '#' :: p) := by
    cases e with
    | nil => simpa using lstrip_cons_of_not_space '#' _ (by decide)
    | cons c t =>
      have hc := head_not_space_of_lstrip c t he
      simpa using lstrip_cons_of_not_space c _ hc
  have hr : rstrip (e ++ '#' :: (m ++ '#' :: p)) = e ++ '#' :: (m ++ '#' :: p) := by
    rw [rstrip_eq_self_iff]
    have hrev : (e ++ '#' :: (m ++ '#' :: p)).reverse
        = p.reverse ++ '#' :: (m.reverse ++ '#' :: e.reverse) := by
      simp
    rw [hrev]
    rw [rstrip_eq_self_iff] at hp
    cases hpr : p.reverse with
    | nil => simpa using lstrip_cons_of_not_space '#' _ (by decide)
    | cons c t =>
      rw [hpr] at hp
      have hc := head_not_space_of_lstrip c t hp
      simpa using lstrip_cons_of_not_space c _ hc
  simp only [strip, hl, hr]

theorem filterMap_id_of {α : Type} (g : α → Option α) (l : List α)
    (h : ∀ x ∈ l, g x = some x) : l.filterMap g = l := by
  induction l with
  | nil => rfl
  | cons x t ih =>
    rw [List.filterMap_cons, h x (by simp), ih (fun y hy => h y (List.mem_cons_of_mem x hy))]

/-! ## Store lemmas -/

/-- The RecordSet invariant of the spec: aggregates derived from the
records, paths pairwise distinct. -/
def storeInvariant (d : JsonDoc) : Prop :=
  d.totalFilesCount = (d.files.length : Int) ∧
  d.totalSize = (d.files.map (fun f => intVal f.size)).sum ∧
  (d.files.map FileRec.path).Nodup

instance (d : JsonDoc) : Decidable (storeInvariant d) := by
  unfold storeInvariant; infer_instance

theorem addLoop_nodup (new cur : List FileRec) (h : (cur.map FileRec.path).Nodup) :
    (((addLoop cur new).1.map FileRec.path)).Nodup := by
  induction new generalizing cur with
  | nil => simpa [addLoop] using h
  | cons f rest ih =>
    by_cases hf : f.path ∈ cur.map FileRec.path
    · simpa [addLoop, hf] using ih cur h
    · have h2 : ((cur ++ [f]).map FileRec.path).Nodup := by
        rw [List.map_append]
        refine List.nodup_append.mpr ⟨h, List.nodup_singleton _, ?_⟩
        intro x hx
        simp only [List.map_cons, List.map_nil, List.mem_singleton]
        intro hx2
        exact hf (hx2 ▸ hx)
      simpa [addLoop, hf] using ih (cur ++ [f]) h2

theorem update_totals_invariant (d : JsonDoc) (h : (d.files.map FileRec.path).Nodup) :
    storeInvariant (update_totals d) := by
  refine ⟨rfl, rfl, ?_⟩
  simpa [update_totals] using h

theorem sort_json_data_perm (d : JsonDoc) : (sort_json_data d).files.Perm d.files :=
  List.mergeSort_perm _ _

theorem sorted_totals_invariant (d : JsonDoc) (h : (d.files.map FileRec.path).Nodup) :
    storeInvariant (update_totals (sort_json_data d)) := by
  refine update_totals_invariant _ ?_
  exact (((sort_json_data_perm d).map FileRec.path).nodup_iff).mpr h

/-! ## Splitter lemmas -/

theorem chunksOfAux_flatten (n : Nat) (hn : 0 < n) (fuel : Nat) :
    ∀ l : List FileRec, l.length ≤ fuel → (chunksOfAux n fuel l).flatten = l := by
  induction fuel with
  | zero =>
    intro l hl
    have : l = [] := List.length_eq_zero.mp (Nat.le_zero.mp hl)
    subst this; rfl
  | succ fuel ih =>
    intro l hl
    cases l with
    | nil => rfl
    | cons c t =>
      have hdrop : ((c :: t).drop n).length ≤ fuel := by
        rw [List.length_drop]
        simp only [List.length_cons] at hl ⊢
        omega
      simp only [chunksOfAux, List.flatten_cons, ih _ hdrop, List.take_append_drop]

theorem chunksOfAux_length (n : Nat) (hn : 0 < n) (fuel : Nat) :
    ∀ l : List FileRec, l.length ≤ fuel →
      (chunksOfAux n fuel l).length = (l.length + n - 1) / n := by
  induction fuel with
  | zero =>
    intro l hl
    have h0 : (n - 1) / n = 0 := Nat.div_eq_of_lt (by omega)
    have : l = [] := List.length_eq_zero.mp (Nat.le_zero.mp hl)
    subst this
    simp [chunksOfAux, h0]
  | succ fuel ih =>
    intro l hl
    have h0 : (n - 1) / n = 0 := Nat.div_eq_of_lt (by omega)
    cases l with
    | nil => simp [chunksOfAux, h0]
    | cons c t =>
      have hdrop : ((c :: t).drop n).length ≤ fuel := by
        rw [List.length_drop]
        simp only [List.length_cons] at hl ⊢
        omega
      have hlen : ((c :: t).drop n).length = (c :: t).length - n := List.length_drop n _
      simp only [chunksOfAux, List.length_cons, ih _ hdrop, hlen]
      rcases le_or_lt (t.length + 1) n with hle | hlt
      · have e1 : t.length + 1 - n + n - 1 = n - 1 := by omega
        rw [e1, h0]
        have e2 : (t.length + 1 + n - 1) / n = 1 :=
          Nat.div_eq_of_lt_le (by omega) (by omega)
        rw [e2]
      · have e1 : t.length + 1 - n + n - 1 = t.length := by omega
        have e2 : t.length + 1 + n - 1 = t.length + n := by omega
        rw [e1, e2, Nat.add_div_right _ hn]

/-! ## Claim C4 — validator on `{"files": "not-a-list"}` -/

/-- C4 (corrected): the validator rejects `{"files": "not-a-list"}`, but —
because the required-top-level-field loop runs before the `files` type
check — the message is `缺少必要字段: totalFilesCount` (missing required
field), not `files字段必须是列表`. -/
theorem c4_validator_rejects_nonlist_files :
    is_valid_123_json [("files", .jStr "not-a-list")]
      = (false, "缺少必要字段: totalFilesCount") := by
  exact rfl

/-- C4 counterexample: on `{"files": "not-a-list"}` the verdict is a
rejection, but with the missing-field message, not the claimed
`files字段必须是列表`. -/
theorem c4_counterexample :
    (is_valid_123_json [("files", .jStr "not-a-list")]).1 = false ∧
    (is_valid_123_json [("files", .jStr "not-a-list")]).2 ≠ "files字段必须是列表" := by
  refine ⟨rfl, ?_⟩
  decide

/-! ## Claim C7 — `split_json_by_count` -/

/-- C7: for a positive chunk size, `split_json_by_count` yields exactly
`ceil(n / chunk_size)` chunks, their `files` concatenate in order to the
original list, and each chunk carries the freshly computed count and size of
its slice; a non-positive chunk size is an error. -/
theorem c7_split_by_count (d : JsonDoc) (chunkSize : Int) (hk : 0 < chunkSize)
    (hsz : ∀ f ∈ d.files, pyIntOk f.size = true) :
    (∃ chunks, split_json_by_count d chunkSize = .ok chunks ∧
      chunks.length = (d.files.length + chunkSize.toNat - 1) / chunkSize.toNat ∧
      (chunks.map JsonDoc.files).flatten = d.files ∧
      ∀ c ∈ chunks, c.totalFilesCount = (c.files.length : Int) ∧
        c.totalSize = (c.files.map (fun f => intVal f.size)).sum) ∧
    ∀ k ≤ 0, ∃ e, split_json_by_count d k = .error e := by
  have hn : 0 < chunkSize.toNat := by omega
  constructor
  · refine ⟨(chunksOf chunkSize.toNat d.files).map (countChunk d), ?_, ?_, ?_, ?_⟩
    · simp [split_json_by_count, not_le.mpr hk]
    · rw [List.length_map]
      exact chunksOfAux_length chunkSize.toNat hn d.files.length d.files (le_refl _)
    · rw [List.map_map]
      have hcomp : (JsonDoc.files ∘ countChunk d) = (id : List FileRec → List FileRec) := rfl
      rw [hcomp, List.map_id]
      exact chunksOfAux_flatten chunkSize.toNat hn d.files.length d.files (le_refl _)
    · intro c hc
      obtain ⟨sl, _, rfl⟩ := List.mem_map.mp hc
      exact ⟨rfl, rfl⟩
  · intro k hk0
    exact ⟨"chunk_size必须为正整数".toList, by simp [split_json_by_count, hk0]⟩

/-- C7 witness: a three-record document split with chunk size 2. -/
theorem c7_witness :
    (0 : Int) < 2 ∧
    (∃ chunks,
      split_json_by_count
        { files := [⟨"a.txt".toList, "1".toList, "E".toList⟩,
                    ⟨"b.txt".toList, "2".toList, "F".toList⟩,
                    ⟨"c.txt".toList, "3".toList, "G".toList⟩],
          totalFilesCount := 3, totalSize := 6, commonPath := [],
          formattedTotalSize := none, extra := [] } 2 = .ok chunks ∧
      chunks.length = (3 + (2 : Int).toNat - 1) / (2 : Int).toNat ∧
      (chunks.map JsonDoc.files).flatten =
        [⟨"a.txt".toList, "1".toList, "E".toList⟩,
         ⟨"b.txt".toList, "2".toList, "F".toList⟩,
         ⟨"c.txt".toList, "3".toList, "G".toList⟩] ∧
      ∀ c ∈ chunks, c.totalFilesCount = (c.files.length : Int) ∧
        c.totalSize = (c.files.map (fun f => intVal f.size)).sum) ∧
    ∀ k ≤ 0, ∃ e,
      split_json_by_count
        { files := [⟨"a.txt".toList, "1".toList, "E".toList⟩,
                    ⟨"b.txt".toList, "2".toList, "F".toList⟩,
                    ⟨"c.txt".toList, "3".toList, "G".toList⟩],
          totalFilesCount := 3, totalSize := 6, commonPath := [],
          formattedTotalSize := none, extra := [] } k = .error e := by
  refine ⟨by decide, ?_⟩
  have h := c7_split_by_count
    { files := [⟨"a.txt".toList, "1".toList, "E".toList⟩,
                ⟨"b.txt".toList, "2".toList, "F".toList⟩,
                ⟨"c.txt".toList, "3".toList, "G".toList⟩],
      totalFilesCount := 3, totalSize := 6, commonPath := [],
      formattedTotalSize := none, extra := [] } 2 (by decide) (by decide)
  simpa using h

/-! ## Claim C6 — store invariants under the mutating operations -/

/-- C6 (amended): starting from a loaded store with pairwise-distinct member
paths, `add_files`, `remove_files` *on a non-empty path list*, and a
successful `merge` each yield a state whose `totalFilesCount` is the number
of records, whose `totalSize` is the sum of the records' sizes, and whose
member paths are again pairwise distinct.  (The non-emptiness condition is
forced by the source's early return `if not self.data or not paths`, which
skips the recomputation; see the counterexample.) -/
theorem c6_store_invariants (d : JsonDoc) (newFiles : List FileRec) (paths : List Str)
    (docs : List JsonDoc)
    (hd : (d.files.map FileRec.path).Nodup) (hp : paths ≠ [])
    (hsz1 : ∀ f ∈ d.files ++ newFiles, pyIntOk f.size = true)
    (hsz2 : ∀ f ∈ docs.flatMap JsonDoc.files, pyIntOk f.size = true) :
    storeInvariant (add_files d newFiles).1 ∧
    storeInvariant (remove_files d paths).1 ∧
    ∀ m, (merge_json_files docs).1 = some m → storeInvariant m := by
  refine ⟨?_, ?_, ?_⟩
  · exact sorted_totals_invariant _ (addLoop_nodup newFiles d.files hd)
  · simp only [remove_files, if_neg hp]
    refine update_totals_invariant _ ?_
    have hsub : ((d.files.filter (fun f => !(f.path ∈ paths))).map FileRec.path).Sublist
        (d.files.map FileRec.path) :=
      (List.filter_sublist d.files).map FileRec.path
    exact hsub.nodup hd
  · intro m hm
    by_cases h : (addLoop [] (docs.flatMap JsonDoc.files)).1 = []
    · simp [merge_json_files, h] at hm
    · simp only [merge_json_files, if_neg h] at hm
      obtain rfl := Option.some_injective _ hm
      exact sorted_totals_invariant _ (addLoop_nodup _ [] (by simp))

/-- C6 witness: the three operations on a small concrete store. -/
theorem c6_witness :
    storeInvariant (add_files
      { files := [⟨"b.txt".toList, "2".toList, "F".toList⟩],
        totalFilesCount := 1, totalSize := 2, commonPath := [],
        formattedTotalSize := none, extra := [] }
      [⟨"a.txt".toList, "1".toList, "E".toList⟩,
       ⟨"b.txt".toList, "9".toList, "Z".toList⟩]).1 ∧
    storeInvariant (remove_files
      { files := [⟨"b.txt".toList, "2".toList, "F".toList⟩],
        totalFilesCount := 1, totalSize := 2, commonPath := [],
        formattedTotalSize := none, extra := [] }
      ["b.txt".toList, "missing".toList]).1 ∧
    ∀ m, (merge_json_files
      [{ files := [⟨"b.txt".toList, "2".toList, "F".toList⟩],
         totalFilesCount := 1, totalSize := 2, commonPath := [],
         formattedTotalSize := none, extra := [] }]).1 = some m → storeInvariant m := by
  exact c6_store_invariants _ _ _ _ (by decide) (by decide) (by decide) (by decide)

/-- C6 counterexample: `remove_files` with an empty path list returns early
without recomputing the aggregates, so a store with distinct paths but a
stale `totalFilesCount` is handed back unchanged, violating the claimed
invariant for that mutating call. -/
theorem c6_counterexample :
    (({ files := [⟨['a'], ['1'], ['e']⟩], totalFilesCount := 5, totalSize := 0,
        commonPath := [], formattedTotalSize := none,
        extra := [] } : JsonDoc).files.map FileRec.path).Nodup ∧
    remove_files
      { files := [⟨['a'], ['1'], ['e']⟩], totalFilesCount := 5, totalSize := 0,
        commonPath := [], formattedTotalSize := none, extra := [] } []
      = ({ files := [⟨['a'], ['1'], ['e']⟩], totalFilesCount := 5, totalSize := 0,
           commonPath := [], formattedTotalSize := none, extra := [] }, 0) ∧
    ({ files := [⟨['a'], ['1'], ['e']⟩], totalFilesCount := 5, totalSize := 0,
       commonPath := [], formattedTotalSize := none,
       extra := [] } : JsonDoc).totalFilesCount
      ≠ (({ files := [⟨['a'], ['1'], ['e']⟩], totalFilesCount := 5, totalSize := 0,
            commonPath := [], formattedTotalSize := none,
            extra := [] } : JsonDoc).files.length : Int) := by
  refine ⟨by decide, rfl, by decide⟩

/-! ## Claim C8 — `remove_files` result and count -/

/-- C8: on a loaded store and a non-empty path list, `remove_files` keeps
exactly the records whose path is not in the list, recomputes both
aggregates, and returns the number of *distinct* requested paths — whether
or not each requested path was present. -/
theorem c8_remove_files (d : JsonDoc) (paths : List Str) (hp : paths ≠ [])
    (hsz : ∀ f ∈ d.files, pyIntOk f.size = true) :
    (remove_files d paths).1.files = d.files.filter (fun f => !(f.path ∈ paths)) ∧
    (remove_files d paths).1.totalFilesCount
      = ((remove_files d paths).1.files.length : Int) ∧
    (remove_files d paths).1.totalSize
      = ((remove_files d paths).1.files.map (fun f => intVal f.size)).sum ∧
    (remove_files d paths).2 = paths.toFinset.card := by
  simp only [remove_files, if_neg hp]
  refine ⟨rfl, rfl, rfl, ?_⟩
  simp [List.card_toFinset]

/-- C8 witness: removing one present and two copies of one absent path from
a one-record store returns `2` (the distinct requested paths), not `1`. -/
theorem c8_witness :
    (remove_files
      { files := [⟨['a'], ['1'], ['E']⟩], totalFilesCount := 1, totalSize := 1,
        commonPath := [], formattedTotalSize := none, extra := [] }
      [['a'], ['b'], ['b']]).1.files
      = ({ files := [⟨['a'], ['1'], ['E']⟩], totalFilesCount := 1, totalSize := 1,
           commonPath := [], formattedTotalSize := none,
           extra := [] } : JsonDoc).files.filter
          (fun f => !(f.path ∈ [['a'], ['b'], ['b']])) ∧
    (remove_files
      { files := [⟨['a'], ['1'], ['E']⟩], totalFilesCount := 1, totalSize := 1,
        commonPath := [], formattedTotalSize := none, extra := [] }
      [['a'], ['b'], ['b']]).1.totalFilesCount
      = ((remove_files
          { files := [⟨['a'], ['1'], ['E']⟩], totalFilesCount := 1, totalSize := 1,
            commonPath := [], formattedTotalSize := none, extra := [] }
          [['a'], ['b'], ['b']]).1.files.length : Int) ∧
    (remove_files
      { files := [⟨['a'], ['1'], ['E']⟩], totalFilesCount := 1, totalSize := 1,
        commonPath := [], formattedTotalSize := none, extra := [] }
      [['a'], ['b'], ['b']]).1.totalSize
      = ((remove_files
          { files := [⟨['a'], ['1'], ['E']⟩], totalFilesCount := 1, totalSize := 1,
            commonPath := [], formattedTotalSize := none, extra := [] }
          [['a'], ['b'], ['b']]).1.files.map (fun f => intVal f.size)).sum ∧
    (remove_files
      { files := [⟨['a'], ['1'], ['E']⟩], totalFilesCount := 1, totalSize := 1,
        commonPath := [], formattedTotalSize := none, extra := [] }
      [['a'], ['b'], ['b']]).2 = ([['a'], ['b'], ['b']] : List Str).toFinset.card :=
  c8_remove_files _ _ (by decide) (by decide)

/-! ## Claim C9 — the validator rejects what the generator emits -/

/-- C9: for two records sharing the directory `dir`, `generate_link` emits
the FLCPV2 form, `parse_link` accepts it (two records, empty error), yet
`validate_link_format` rejects the very same link, because the bare
`base_path` token cannot be split into three `'#'` fields. -/
theorem c9_validator_rejects_generated_flcp :
    generate_link [⟨"dir/a.txt".toList, "5".toList, "X".toList⟩,
                   ⟨"dir/b.txt".toList, "7".toList, "Y".toList⟩]
      = "123FLCPV2$dir$X#5#a.txt$Y#7#b.txt".toList ∧
    (parse_link "123FLCPV2$dir$X#5#a.txt$Y#7#b.txt".toList).1 ≠ [] ∧
    (parse_link "123FLCPV2$dir$X#5#a.txt$Y#7#b.txt".toList).2 = [] ∧
    (validate_link_format "123FLCPV2$dir$X#5#a.txt$Y#7#b.txt".toList).1 = false := by
  refine ⟨by decide, by decide, by decide, by decide⟩

/-! ## Claim C10 — frame property of `add_files` / `remove_files` -/

/-- C10: `add_files` and `remove_files` touch only the `files`,
`totalFilesCount` and `totalSize` entries of the document: the `commonPath`
and `formattedTotalSize` entries and every remaining top-level key (the
`extra` association list: `scriptVersion`, `usesBase62EtagsInExport`, …)
keep exactly their previous values. -/
theorem c10_frame (d : JsonDoc) (newFiles : List FileRec) (paths : List Str) :
    ((add_files d newFiles).1.commonPath = d.commonPath ∧
     (add_files d newFiles).1.formattedTotalSize = d.formattedTotalSize ∧
     (add_files d newFiles).1.extra = d.extra) ∧
    ((remove_files d paths).1.commonPath = d.commonPath ∧
     (remove_files d paths).1.formattedTotalSize = d.formattedTotalSize ∧
     (remove_files d paths).1.extra = d.extra) := by
  refine ⟨⟨rfl, rfl, rfl⟩, ?_⟩
  by_cases hp : paths = [] <;> simp [remove_files, hp, update_totals]

/-! ## Claim C1 — FSLink round trip -/

/-- A record whose fields are free of the FSLink delimiters and of
surrounding whitespace: no `'$'` anywhere, no `'#'` in `etag`/`size`, no
backslash in `path`, and every field unchanged by `lstrip`/`rstrip`.  These
are exactly the conditions under which the textual encoding is injective
(see the C1 counterexample for a record violating them). -/
def CleanRec (f : FileRec) : Prop :=
  '$' ∉ f.etag ∧ '#' ∉ f.etag ∧ lstrip f.etag = f.etag ∧ rstrip f.etag = f.etag ∧
  '$' ∉ f.size ∧ '#' ∉ f.size ∧ lstrip f.size = f.size ∧ rstrip f.size = f.size ∧
  '$' ∉ f.path ∧ '\\' ∉ f.path ∧ lstrip f.path = f.path ∧ rstrip f.path = f.path

instance (f : FileRec) : Decidable (CleanRec f) := by
  unfold CleanRec; infer_instance

/-- The body of one FSLink token for a record, `etag#size#path`. -/
def fsBody (f : FileRec) : Str := f.etag ++ '#' :: (f.size ++ '#' :: f.path)

theorem replaceBackslash_id (s : Str) (h : '\\' ∉ s) : replaceBackslash s = s := by
  induction s with
  | nil => rfl
  | cons c t ih =>
    have hc : c ≠ '\\' := fun hc => h (hc ▸ List.mem_cons_self c t)
    have ht : '\\' ∉ t := fun hm => h (List.mem_cons_of_mem c hm)
    simp [replaceBackslash, hc, ih ht] at ih ⊢
    exact ih ht

theorem strip_eq_self_of (s : Str) (h1 : lstrip s = s) (h2 : rstrip s = s) :
    strip s = s := by rw [strip, h1, h2]

theorem flatMap_congr_mem {α β : Type} (l : List α) (f g : α → List β)
    (h : ∀ x ∈ l, f x = g x) : l.flatMap f = l.flatMap g := by
  induction l with
  | nil => rfl
  | cons x t ih =>
    simp only [List.flatMap_cons, h x (by simp),
      ih (fun y hy => h y (List.mem_cons_of_mem x hy))]

theorem flatMap_map_eq {α β γ : Type} (f : α → β) (g : β → List γ) (l : List α) :
    (l.map f).flatMap g = l.flatMap (fun a => g (f a)) := by
  induction l with
  | nil => rfl
  | cons x t ih => simp only [List.map_cons, List.flatMap_cons, ih]

theorem splitOn_tag_flatMap (bs : List Str) (hb : ∀ b ∈ bs, '$' ∉ b) :
    ∀ t : Str, '$' ∉ t →
      splitOn '$' (t ++ bs.flatMap (fun b => '$' :: b)) = t :: bs := by
  induction bs with
  | nil =>
    intro t ht
    simpa using splitOn_nosep '$' t ht
  | cons b rest ih =>
    intro t ht
    have hb' : ∀ x ∈ rest, '$' ∉ x := fun x hx => hb x (List.mem_cons_of_mem b hx)
    have h1 : t ++ (b :: rest).flatMap (fun s => '$' :: s)
        = t ++ '$' :: (b ++ rest.flatMap (fun s => '$' :: s)) := by simp
    rw [h1, splitOn_sep_cons '$' t _ ht, ih hb' b (hb b (by simp))]

theorem dollar_not_mem_fsBody (f : FileRec) (h : CleanRec f) : '$' ∉ fsBody f := by
  obtain ⟨he1, he2, he3, he4, hs1, hs2, hs3, hs4, hp1, hp2, hp3, hp4⟩ := h
  simp only [fsBody, List.mem_append, List.mem_cons, not_or]
  exact ⟨he1, by decide, hs1, by decide, hp1⟩

theorem fslinkEntry_clean (f : FileRec) (h : CleanRec f) :
    fslinkEntry (fsBody f) = some f := by
  obtain ⟨he1, he2, he3, he4, hs1, hs2, hs3, hs4, hp1, hp2, hp3, hp4⟩ := h
  rw [fslinkEntry, fsBody, split2_exact '#' f.etag f.size f.path he2 hs2]
  show some (⟨strip (replaceBackslash f.path), strip f.size, strip f.etag⟩ : FileRec)
    = some f
  rw [replaceBackslash_id f.path hp2, strip_eq_self_of f.path hp3 hp4,
    strip_eq_self_of f.size hs3 hs4, strip_eq_self_of f.etag he3 he4]

theorem strip_fsBody (f : FileRec) (h : CleanRec f) : strip (fsBody f) = fsBody f := by
  obtain ⟨he1, he2, he3, he4, hs1, hs2, hs3, hs4, hp1, hp2, hp3, hp4⟩ := h
  exact strip_sandwich f.etag f.size f.path he3 hp4

theorem fsBody_ne_nil (f : FileRec) : fsBody f ≠ [] := by
  simp [fsBody]

theorem parse_fslink_of_bodies (R : List FileRec) (hclean : ∀ f ∈ R, CleanRec f) :
    parse_fslink (tagFSV2 ++ R.flatMap (fun f => '$' :: fsBody f))
      = (R, if R = [] then msgNoValid else []) := by
  have hsplit : splitOn '$' (tagFSV2 ++ R.flatMap (fun f => '$' :: fsBody f))
      = tagFSV2 :: R.map fsBody := by
    have hflat : R.flatMap (fun f => '$' :: fsBody f)
        = (R.map fsBody).flatMap (fun b => '$' :: b) := (flatMap_map_eq fsBody _ R).symm
    rw [hflat]
    refine splitOn_tag_flatMap (R.map fsBody) ?_ tagFSV2 (by decide)
    intro b hb
    obtain ⟨f, hf, rfl⟩ := List.mem_map.mp hb
    exact dollar_not_mem_fsBody f (hclean f hf)
  have hfiles : (splitOn '$' (tagFSV2 ++ R.flatMap (fun f => '$' :: fsBody f))).tail.filterMap
      (fun part => if strip part = [] then none else fslinkEntry part) = R := by
    rw [hsplit]
    simp only [List.tail_cons]
    rw [List.filterMap_map]
    refine filterMap_id_of _ R ?_
    intro f hf
    have h1 := strip_fsBody f (hclean f hf)
    have h2 := fsBody_ne_nil f
    simp only [Function.comp_apply, h1, if_neg h2]
    exact fslinkEntry_clean f (hclean f hf)
  rw [parse_fslink]
  rw [hfiles]

/-- C1 (amended): for a non-empty record list whose paths share no common
directory prefix (FSLink form) and whose records are `CleanRec` — fields
free of `'$'`, of `'#'` in `etag`/`size`, of backslashes in `path`, and of
surrounding whitespace — `parse_link (generate_link R)` returns exactly `R`
with an empty error message (order-preserving, hence also equal as a set of
`(path, size, etag)` triples). -/
theorem c1_roundtrip_fslink (R : List FileRec) (hne : R ≠ [])
    (hcp : find_common_path (R.map FileRec.path) = [])
    (hclean : ∀ f ∈ R, CleanRec f) :
    parse_link (generate_link R) = (R, []) := by
  have hgen : generate_link R = tagFSV2 ++ R.flatMap (fun f => '$' :: fsBody f) := by
    have h2 : generate_link R = generate_fslink R := by
      rw [generate_link, if_neg hne]
      simp [hcp]
    rw [h2, generate_fslink]
    congr 1
    refine flatMap_congr_mem R _ _ ?_
    intro f hf
    obtain ⟨he1, he2, he3, he4, hs1, hs2, hs3, hs4, hp1, hp2, hp3, hp4⟩ := hclean f hf
    rw [fsBody, replaceBackslash_id f.path hp2, strip_eq_self_of f.path hp3 hp4]
  have hlink_ne : tagFSV2 ++ R.flatMap (fun f => '$' :: fsBody f) ≠ [] := by
    intro h
    have := congrArg List.length h
    simp [tagFSV2] at this
  have hstart : startsWith tagFS9 (tagFSV2 ++ R.flatMap (fun f => '$' :: fsBody f)) = true := by
    have htag : tagFSV2 = tagFS9 ++ ['V', '2'] := by decide
    rw [startsWith, htag, List.append_assoc]
    exact List.isPrefixOf_iff_prefix.mpr ⟨_, rfl⟩
  rw [hgen, parse_link, if_neg hlink_ne, hstart, if_pos rfl,
    parse_fslink_of_bodies R hclean, if_neg hne]

/-- C1 witness: the spec's own example record round-trips. -/
theorem c1_witness :
    ([⟨"a.txt".toList, "10".toList, "E1".toList⟩] : List FileRec) ≠ [] ∧
    find_common_path (([⟨"a.txt".toList, "10".toList, "E1".toList⟩] :
      List FileRec).map FileRec.path) = [] ∧
    (∀ f ∈ ([⟨"a.txt".toList, "10".toList, "E1".toList⟩] : List FileRec), CleanRec f) ∧
    parse_link (generate_link [⟨"a.txt".toList, "10".toList, "E1".toList⟩])
      = ([⟨"a.txt".toList, "10".toList, "E1".toList⟩], []) :=
  ⟨by decide, by decide, by decide,
    c1_roundtrip_fslink _ (by decide) (by decide) (by decide)⟩

/-- C1 counterexample: for the record `{path: "a", size: "1", etag: "x$y"}`
(no common directory prefix, so the FSLink form is emitted) the `'$'` inside
the etag shifts the token boundaries: parsing recovers a record with etag
`"y"`, so the result does not equal `R` even as a set of triples, although
the error message is empty. -/
theorem c1_counterexample :
    find_common_path (([⟨['a'], ['1'], ['x', '$', 'y']⟩] : List FileRec).map FileRec.path)
      = [] ∧
    ([⟨['a'], ['1'], ['x', '$', 'y']⟩] : List FileRec) ≠ [] ∧
    (parse_link (generate_link [⟨['a'], ['1'], ['x', '$', 'y']⟩])).1
      = [⟨['a'], ['1'], ['y']⟩] ∧
    ¬ (parse_link (generate_link [⟨['a'], ['1'], ['x', '$', 'y']⟩])).1.Perm
        [⟨['a'], ['1'], ['x', '$', 'y']⟩] := by
  refine ⟨by decide, by decide, by decide, by decide⟩

/-! ## Claim C3 — FLCP entry paths ignore the base path -/

/-- The FLCP entry semantics as worded by the spec (§4.1): for a non-blank
token splitting into `(etag, size, rest)`, the record path is the
percent-decoded substring after the *last* `'#'` of `rest`, used verbatim as
the whole path; the captured `base_path` does not occur in the formula. -/
def specFlcpEntry (part : Str) : Option FileRec :=
  if strip part = [] then none
  else
    match split2 '#' part with
    | [etag, size, rest] =>
      some ⟨replaceBackslash (unquote (strip ((splitOn '#' rest).getLastD []))),
            strip size, strip etag⟩
    | _ => none

theorem parse_flcp_eval (link t b : Str) (entries : List Str)
    (hsplit : splitOn '$' link = t :: b :: entries) :
    (parse_flcp_link link).1 = entries.filterMap specFlcpEntry := by
  have hg : (fun part => if strip part = [] then none else flcpEntry part)
      = specFlcpEntry := by
    funext part
    by_cases hp : strip part = []
    · simp [specFlcpEntry, hp]
    · simp only [specFlcpEntry, if_neg hp, flcpEntry]
  cases entries with
  | nil =>
    have hlen : ((t :: b :: []) : List Str).length < 3 := by simp
    simp [parse_flcp_link, hsplit, hlen]
  | cons e es =>
    have hlen2 : ¬ ((t :: b :: e :: es).length < 3) := by
      simp only [List.length_cons]
      omega
    simp only [parse_flcp_link, hsplit, if_neg hlen2, List.drop_succ_cons, List.drop_zero]
    rw [hg]

/-- C3: whenever the link splits on `'$'` into a tag, a base-path token and
entry tokens, the parsed records are exactly `specFlcpEntry` of each entry —
the path is the percent-decoded text after the last `'#'` of the entry's
third field, used verbatim — and replacing the base-path token by any other
`'$'`-free token leaves the records unchanged: `base_path` is never
prepended. -/
theorem c3_flcp_path_ignores_base (link t b : Str) (entries : List Str)
    (hsplit : splitOn '$' link = t :: b :: entries) :
    (parse_flcp_link link).1 = entries.filterMap specFlcpEntry ∧
    ∀ b2 : Str, '$' ∉ b2 →
      (parse_flcp_link (joinSep '$' (t :: b2 :: entries))).1
        = entries.filterMap specFlcpEntry := by
  refine ⟨parse_flcp_eval link t b entries hsplit, ?_⟩
  intro b2 hb2
  have ht : '$' ∉ t := not_sep_mem_splitOn '$' link t (by rw [hsplit]; simp)
  have hes : ∀ x ∈ entries, '$' ∉ x := fun x hx =>
    not_sep_mem_splitOn '$' link x (by rw [hsplit]; simp [hx])
  have hjoin : splitOn '$' (joinSep '$' (t :: b2 :: entries)) = t :: b2 :: entries := by
    refine splitOn_joinSep '$' _ (by simp) ?_
    intro x hx
    simp only [List.mem_cons] at hx
    rcases hx with hx | hx | hx
    · exact hx ▸ ht
    · exact hx ▸ hb2
    · exact hes x hx
  exact parse_flcp_eval _ t b2 entries hjoin

/-- C3 witness: the entry `E#5#sub#name%20x` yields the record
`{path: "name x", size: "5", etag: "E"}` — the `sub` component before the
last `'#'` is discarded and neither `base` nor `other` is prepended. -/
theorem c3_witness :
    splitOn '$' "123FLCPV2$base$E#5#sub#name%20x".toList
      = ["123FLCPV2".toList, "base".toList, "E#5#sub#name%20x".toList] ∧
    (parse_flcp_link "123FLCPV2$base$E#5#sub#name%20x".toList).1
      = [⟨"name x".toList, "5".toList, "E".toList⟩] ∧
    (parse_flcp_link (joinSep '$'
        ["123FLCPV2".toList, "other".toList, "E#5#sub#name%20x".toList])).1
      = [⟨"name x".toList, "5".toList, "E".toList⟩] := by
  have h := c3_flcp_path_ignores_base "123FLCPV2$base$E#5#sub#name%20x".toList
    "123FLCPV2".toList "base".toList ["E#5#sub#name%20x".toList] (by decide)
  refine ⟨by decide, ?_, ?_⟩
  · rw [h.1]; decide
  · rw [h.2 "other".toList (by decide)]; decide

/-! ## Claim C5 — `validate_link_format` characterization -/

theorem checkParts_true_iff (ps : List Str) :
    checkParts ps = (true, []) ↔
      ∀ p ∈ ps, p ≠ [] → ∃ e s r, split2 '#' p = [e, s, r] ∧ isDigitStr s = true := by
  induction ps with
  | nil => simp [checkParts]
  | cons p rest ih =>
    by_cases hp : p = []
    · subst hp
      rw [show checkParts ([] :: rest) = checkParts rest from by simp [checkParts]]
      rw [ih]
      constructor
      · intro h q hq hq2
        rw [List.mem_cons] at hq
        rcases hq with hq | hq
        · exact absurd hq hq2
        · exact h q hq hq2
      · intro h q hq hq2
        exact h q (List.mem_cons_of_mem _ hq) hq2
    · rcases h2 : split2 '#' p with _ | ⟨a, _ | ⟨b, _ | ⟨c, _ | ⟨d, t2⟩⟩⟩⟩
      · constructor
        · intro h
          exfalso
          simp [checkParts, hp, h2] at h
        · intro h
          obtain ⟨e, s, r, heq, _⟩ := h p (by simp) hp
          rw [h2] at heq
          simp at heq
      · constructor
        · intro h
          exfalso
          simp [checkParts, hp, h2] at h
        · intro h
          obtain ⟨e, s, r, heq, _⟩ := h p (by simp) hp
          rw [h2] at heq
          simp at heq
      · constructor
        · intro h
          exfalso
          simp [checkParts, hp, h2] at h
        · intro h
          obtain ⟨e, s, r, heq, _⟩ := h p (by simp) hp
          rw [h2] at heq
          simp at heq
      · by_cases hd : isDigitStr b = true
        · rw [show checkParts (p :: rest) = checkParts rest from by
            simp [checkParts, hp, h2, hd]]
          rw [ih]
          constructor
          · intro h q hq hq2
            rw [List.mem_cons] at hq
            rcases hq with hq | hq
            · subst hq
              exact ⟨a, b, c, h2, hd⟩
            · exact h q hq hq2
          · intro h q hq hq2
            exact h q (List.mem_cons_of_mem _ hq) hq2
        · constructor
          · intro h
            exfalso
            simp [checkParts, hp, h2, hd] at h
          · intro h
            obtain ⟨e, s, r, heq, hds⟩ := h p (by simp) hp
            rw [h2] at heq
            obtain ⟨rfl, rfl, rfl⟩ : a = e ∧ b = s ∧ c = r := by
              simpa using heq
            exact absurd hds hd
      · constructor
        · intro h
          exfalso
          simp [checkParts, hp, h2] at h
        · intro h
          obtain ⟨e, s, r, heq, _⟩ := h p (by simp) hp
          rw [h2] at heq
          simp at heq

/-- C5 (amended): `validate_link_format` returns `(true, "")` exactly when
the link starts with `123FSLink` or `123FLCPV2`, splits on `'$'` into at
least two parts (at least one segment beyond the tag), and every non-empty
segment *does* split into three `'#'` fields with an all-digit size — a
segment that cannot be split into three fields is rejected, not ignored.
The empty link is rejected with `链接不能为空` (link cannot be empty). -/
theorem c5_validate_link_format_iff :
    (∀ link : Str,
      validate_link_format link = (true, []) ↔
        ((startsWith tagFS9 link || startsWith tagFLCP link) = true ∧
         2 ≤ (splitOn '$' link).length ∧
         ∀ p ∈ (splitOn '$' link).tail, p ≠ [] →
           ∃ e s r, split2 '#' p = [e, s, r] ∧ isDigitStr s = true)) ∧
    validate_link_format [] = (false, msgEmpty) := by
  refine ⟨?_, rfl⟩
  intro link
  by_cases h0 : link = []
  · subst h0
    constructor
    · intro h
      exact absurd h (by decide)
    · intro h
      have hl : (splitOn '$' ([] : Str)).length = 1 := by decide
      have h2 := h.2.1
      omega
  · by_cases h1 : (startsWith tagFS9 link || startsWith tagFLCP link) = true
    · by_cases h2 : (splitOn '$' link).length < 2
      · rw [show validate_link_format link = (false, msgMissingInfo) from by
          simp [validate_link_format, h0, h1, h2]]
        constructor
        · intro h
          exact absurd h (by simp [msgMissingInfo])
        · intro h
          exact absurd h.2.1 (by omega)
      · rw [show validate_link_format link = checkParts (splitOn '$' link).tail from by
          simp [validate_link_format, h0, h1, h2]]
        rw [checkParts_true_iff]
        constructor
        · intro h
          exact ⟨h1, by omega, h⟩
        · intro h
          exact h.2.2
    · rw [show validate_link_format link = (false, msgMustStart) from by
        simp only [validate_link_format, if_neg h0]
        simp [Bool.not_eq_true] at h1
        simp [h1]]
      constructor
      · intro h
        exact absurd h (by simp [msgMustStart])
      · intro h
        exact absurd h.1 h1

/-- C5 witness: the well-formed link `123FSLinkV2$E1#10#a.txt` validates. -/
theorem c5_witness :
    validate_link_format "123FSLinkV2$E1#10#a.txt".toList = (true, []) := by
  rw [c5_validate_link_format_iff.1 "123FSLinkV2$E1#10#a.txt".toList]
  refine ⟨by decide, by decide, ?_⟩
  intro p hp hne
  have htail : (splitOn '$' "123FSLinkV2$E1#10#a.txt".toList).tail
      = ["E1#10#a.txt".toList] := by decide
  rw [htail] at hp
  have hp2 : p = "E1#10#a.txt".toList := by simpa using hp
  subst hp2
  exact ⟨"E1".toList, "10".toList, "a.txt".toList, by decide, by decide⟩

/-- C5 counterexample: `123FSLinkV2$abc` satisfies the claim's conditions —
correct tag, one segment beyond the tag, and *vacuously* every segment
splittable into three parts has an all-digit size (no segment is) — yet the
validator rejects it with `文件信息格式错误`, because a segment that cannot
be split into three `'#'` fields is an error, not a skip. -/
theorem c5_counterexample :
    validate_link_format "123FSLinkV2$abc".toList = (false, msgFmtErr) ∧
    (startsWith tagFS9 "123FSLinkV2$abc".toList
      || startsWith tagFLCP "123FSLinkV2$abc".toList) = true ∧
    2 ≤ (splitOn '$' "123FSLinkV2$abc".toList).length ∧
    ∀ p ∈ (splitOn '$' "123FSLinkV2$abc".toList).tail, p ≠ [] →
      (split2 '#' p).length = 3 →
        isDigitStr ((split2 '#' p).getD 1 []) = true := by
  refine ⟨by decide, by decide, by decide, by decide⟩

/-! ## Claim C2 — `split_json_by_folder` machinery

Well-formed relative paths, per the spec's data model (§3): a non-empty
`'/'`-separated path with non-empty components (no leading, trailing or
doubled slashes). -/

/-- A well-formed relative path: non-empty, and splitting on `'/'` yields no
empty component. -/
def wfRel (p : Str) : Prop := p ≠ [] ∧ ∀ s ∈ splitOn '/' p, s ≠ []

instance (p : Str) : Decidable (wfRel p) := by
  unfold wfRel; infer_instance

theorem dropWhile_eq_self_head {α : Type} (p : α → Bool) (c : α) (r : List α)
    (h : List.dropWhile p (c :: r) = c :: r) : p c = false := by
  by_contra hc
  have hc' : p c = true := by revert hc; cases p c <;> simp
  rw [List.dropWhile_cons, if_pos hc'] at h
  have := (List.dropWhile_sublist (l := r) p).length_le
  rw [h] at this
  simp at this

theorem dropWhile_cons_of_false {α : Type} (p : α → Bool) (c : α) (r : List α)
    (h : p c = false) : List.dropWhile p (c :: r) = c :: r := by
  simp [List.dropWhile_cons, h]

theorem dropWhile_idem {α : Type} (p : α → Bool) (l : List α) :
    List.dropWhile p (List.dropWhile p l) = List.dropWhile p l := by
  induction l with
  | nil => rfl
  | cons a t ih =>
    by_cases ha : p a = true
    · rw [List.dropWhile_cons, if_pos ha, ih]
    · have ha' : p a = false := by revert ha; cases p a <;> simp
      rw [dropWhile_cons_of_false p a t ha', dropWhile_cons_of_false p a t ha']

theorem rstripChar_append_last_ne (c b : Char) (x : Str) (hb : b ≠ c) :
    rstripChar c (x ++ [b]) = x ++ [b] := by
  rw [rstripChar, List.reverse_append]
  simp only [List.reverse_cons, List.reverse_nil, List.nil_append, List.singleton_append]
  rw [dropWhile_cons_of_false _ b _ (by simp [hb])]
  simp

theorem rstripChar_append_sep (c : Char) (x : Str) :
    rstripChar c (x ++ [c]) = rstripChar c x := by
  rw [rstripChar, rstripChar, List.reverse_append]
  simp only [List.reverse_cons, List.reverse_nil, List.nil_append, List.singleton_append]
  rw [List.dropWhile_cons, if_pos (by simp)]

theorem rstripChar_idem (c : Char) (x : Str) :
    rstripChar c (rstripChar c x) = rstripChar c x := by
  rw [rstripChar, rstripChar, List.reverse_reverse, dropWhile_idem]

theorem rstripChar_append_of (c : Char) (a b : Str) (hb : b ≠ [])
    (h : rstripChar c b = b) : rstripChar c (a ++ b) = a ++ b := by
  cases hbr : b.reverse with
  | nil => exact absurd (by simpa using congrArg List.reverse hbr) hb
  | cons d t =>
    have hdrop : List.dropWhile (fun y => y = c) b.reverse = b.reverse := by
      have := congrArg List.reverse h
      rw [rstripChar, List.reverse_reverse] at this
      exact this
    rw [hbr] at hdrop
    have hd := dropWhile_eq_self_head _ d t hdrop
    rw [rstripChar, List.reverse_append, hbr, List.cons_append,
      dropWhile_cons_of_false _ d _ hd, ← List.cons_append, ← hbr, ← List.reverse_append,
      List.reverse_reverse]

theorem lstripChar_cons_ne (c b : Char) (r : Str) (hb : b ≠ c) :
    lstripChar c (b :: r) = b :: r := by
  rw [lstripChar, dropWhile_cons_of_false _ b _ (by simp [hb])]

theorem lstripChar_cons_sep (c : Char) (r : Str) :
    lstripChar c (c :: r) = lstripChar c r := by
  rw [lstripChar, List.dropWhile_cons, if_pos (by simp)]
  rfl

theorem joinSep_append (sep : Char) (A B : List Str) (hA : A ≠ []) (hB : B ≠ []) :
    joinSep sep (A ++ B) = joinSep sep A ++ sep :: joinSep sep B := by
  induction A with
  | nil => exact absurd rfl hA
  | cons s A2 ih =>
    cases A2 with
    | nil =>
      cases B with
      | nil => exact absurd rfl hB
      | cons q t => simp [joinSep]
    | cons a2 t2 =>
      have h1 : joinSep sep ((s :: a2 :: t2) ++ B) = s ++ sep :: joinSep sep ((a2 :: t2) ++ B) := by
        simp [joinSep]
      rw [h1, ih (by simp)]
      simp [joinSep]

theorem joinSep_singleton (sep : Char) (s : Str) : joinSep sep [s] = s := rfl

theorem joinSep_head_props (sep : Char) (segs : List Str) (hne : segs ≠ [])
    (hprops : ∀ x ∈ segs, x ≠ [] ∧ sep ∉ x) :
    ∃ c r, joinSep sep segs = c :: r ∧ c ≠ sep := by
  cases segs with
  | nil => exact absurd rfl hne
  | cons s t =>
    obtain ⟨hs, hsep⟩ := hprops s (by simp)
    cases hsc : s with
    | nil => exact absurd hsc hs
    | cons c r =>
      have hc : c ≠ sep := fun h => hsep (hsc ▸ h ▸ List.mem_cons_self c r)
      cases t with
      | nil => exact ⟨c, r, by simp [joinSep, hsc], hc⟩
      | cons q t2 =>
        refine ⟨c, r ++ sep :: joinSep sep (q :: t2), ?_, hc⟩
        have h1 : joinSep sep ((c :: r) :: q :: t2)
            = (c :: r) ++ sep :: joinSep sep (q :: t2) := by simp [joinSep]
        rw [h1]
        simp

theorem lstripChar_joinSep (sep : Char) (segs : List Str) (hne : segs ≠ [])
    (hprops : ∀ x ∈ segs, x ≠ [] ∧ sep ∉ x) :
    lstripChar sep (joinSep sep segs) = joinSep sep segs := by
  obtain ⟨c, r, heq, hc⟩ := joinSep_head_props sep segs hne hprops
  rw [heq]
  exact lstripChar_cons_ne sep c r hc

theorem joinSep_ne_nil (sep : Char) (segs : List Str) (hne : segs ≠ [])
    (hprops : ∀ x ∈ segs, x ≠ [] ∧ sep ∉ x) : joinSep sep segs ≠ [] := by
  obtain ⟨c, r, heq, _⟩ := joinSep_head_props sep segs hne hprops
  rw [heq]
  simp

theorem rstripChar_joinSep (sep : Char) (segs : List Str) (hne : segs ≠ [])
    (hprops : ∀ x ∈ segs, x ≠ [] ∧ sep ∉ x) :
    rstripChar sep (joinSep sep segs) = joinSep sep segs := by
  induction segs with
  | nil => exact absurd rfl hne
  | cons s t ih =>
    cases t with
    | nil =>
      obtain ⟨hs, hsep⟩ := hprops s (by simp)
      have hlast : s.dropLast ++ [s.getLast hs] = s := List.dropLast_append_getLast hs
      have hmem : s.getLast hs ∈ s := List.getLast_mem hs
      have hlc : s.getLast hs ≠ sep := fun h => hsep (h ▸ hmem)
      rw [joinSep_singleton, ← hlast]
      exact rstripChar_append_last_ne sep _ _ hlc
    | cons q t2 =>
      have h1 : joinSep sep (s :: q :: t2) = s ++ sep :: joinSep sep (q :: t2) := by
        simp [joinSep]
      have hprops2 : ∀ x ∈ q :: t2, x ≠ [] ∧ sep ∉ x :=
        fun x hx => hprops x (List.mem_cons_of_mem s hx)
      have hne2 : joinSep sep (q :: t2) ≠ [] := joinSep_ne_nil sep _ (by simp) hprops2
      rw [h1]
      have hr := ih (by simp) hprops2
      rw [show s ++ sep :: joinSep sep (q :: t2)
          = (s ++ [sep]) ++ joinSep sep (q :: t2) from by simp]
      exact rstripChar_append_of sep _ _ hne2 hr

/-- The segments contributed by the common path: none when it is absent. -/
def segsCp (cp : Str) : List Str := if cp = [] then [] else splitOn '/' cp

theorem normCp_ne (cp : Str) (h : cp ≠ []) : normCp cp = rstripChar '/' cp ++ ['/'] := by
  rw [normCp, if_neg h]

theorem wfRel_rstripChar (p : Str) (h : wfRel p) : rstripChar '/' p = p := by
  have hprops : ∀ x ∈ splitOn '/' p, x ≠ [] ∧ '/' ∉ x := fun x hx =>
    ⟨h.2 x hx, not_sep_mem_splitOn '/' p x hx⟩
  have hj := joinSep_splitOn '/' p
  rw [← hj]
  exact rstripChar_joinSep '/' _ (splitOn_ne_nil '/' p) hprops

theorem normCp_wf (cp : Str) (h : wfRel cp) : normCp cp = cp ++ ['/'] := by
  rw [normCp_ne cp h.1, wfRel_rstripChar cp h]

theorem normCp_idem (cp : Str) : normCp (normCp cp) = normCp cp := by
  by_cases h : cp = []
  · subst h; rfl
  · have h2 : normCp cp ≠ [] := by rw [normCp_ne cp h]; simp
    rw [normCp_ne (normCp cp) h2, normCp_ne cp h, rstripChar_append_sep, rstripChar_idem]

theorem splitOn_full (cp p : Str) (hcp : cp = [] ∨ wfRel cp) :
    splitOn '/' (normCp cp ++ p) = segsCp cp ++ splitOn '/' p := by
  rcases hcp with h | h
  · subst h
    simp [normCp, segsCp]
  · rw [normCp_wf cp h, segsCp, if_neg h.1,
      show cp ++ ['/'] ++ p = cp ++ '/' :: p from by simp]
    exact splitOn_sep_append '/' cp p

theorem segsCp_props (cp : Str) (hcp : cp = [] ∨ wfRel cp) :
    ∀ x ∈ segsCp cp, x ≠ [] ∧ '/' ∉ x := by
  rcases hcp with h | h
  · subst h; simp [segsCp]
  · rw [segsCp, if_neg h.1]
    exact fun x hx => ⟨h.2 x hx, not_sep_mem_splitOn '/' cp x hx⟩

theorem partsOf_eq (cp : Str) (f : FileRec) (hcp : cp = [] ∨ wfRel cp)
    (hf : wfRel f.path) :
    partsOf (normCp cp) f = segsCp cp ++ splitOn '/' f.path := by
  rw [partsOf, splitOn_full cp f.path hcp]
  refine List.filter_eq_self.mpr ?_
  intro x hx
  rw [List.mem_append] at hx
  rcases hx with hx | hx
  · have := (segsCp_props cp hcp x hx).1
    simpa using this
  · have := hf.2 x hx
    simpa using this

theorem partsOf_props (cp : Str) (f : FileRec) (hcp : cp = [] ∨ wfRel cp)
    (hf : wfRel f.path) :
    (∀ x ∈ partsOf (normCp cp) f, x ≠ [] ∧ '/' ∉ x) ∧ partsOf (normCp cp) f ≠ [] := by
  rw [partsOf_eq cp f hcp hf]
  constructor
  · intro x hx
    rw [List.mem_append] at hx
    rcases hx with hx | hx
    · exact segsCp_props cp hcp x hx
    · exact ⟨hf.2 x hx, not_sep_mem_splitOn '/' f.path x hx⟩
  · intro h
    rw [List.append_eq_nil] at h
    exact splitOn_ne_nil '/' f.path h.2

theorem fullPath_join (cp : Str) (f : FileRec) (hcp : cp = [] ∨ wfRel cp)
    (hf : wfRel f.path) :
    normCp cp ++ f.path = joinSep '/' (partsOf (normCp cp) f) := by
  rw [partsOf_eq cp f hcp hf]
  rcases hcp with h | h
  · subst h
    rw [show segsCp [] = [] from rfl, List.nil_append, joinSep_splitOn]
    rfl
  · rw [segsCp, if_neg h.1, normCp_wf cp h,
      joinSep_append '/' _ _ (splitOn_ne_nil '/' cp) (splitOn_ne_nil '/' f.path),
      joinSep_splitOn, joinSep_splitOn]
    simp

theorem groupKey_cases (pre : Str) (level : Nat) (f : FileRec)
    (hk : groupKeyOf pre level f ≠ rootKey) :
    level ≤ (partsOf pre f).dropLast.length ∧
    groupKeyOf pre level f = joinSep '/' ((partsOf pre f).dropLast.take level) := by
  by_cases h : level ≤ (partsOf pre f).dropLast.length
  · refine ⟨h, ?_⟩
    simp only [groupKeyOf, if_pos h]
  · exact absurd (by simp only [groupKeyOf, if_neg h]) hk

/-- Reconstruction identity for a rewritten non-root chunk member, stated on
the segment decomposition: re-normalizing `key + '/'` and appending the
slash-stripped remainder restores the full path. -/
theorem join_decomp_recon (T R : List Str) (hTne : T ≠ []) (hRne : R ≠ [])
    (hTprops : ∀ x ∈ T, x ≠ [] ∧ '/' ∉ x) (hRprops : ∀ x ∈ R, x ≠ [] ∧ '/' ∉ x) :
    normCp (joinSep '/' T ++ ['/'])
      ++ lstripChar '/'
          ((joinSep '/' T ++ '/' :: joinSep '/' R).drop (joinSep '/' T).length)
      = joinSep '/' T ++ '/' :: joinSep '/' R := by
  rw [List.drop_left, lstripChar_cons_sep, lstripChar_joinSep '/' R hRne hRprops]
  have hne2 : joinSep '/' T ++ ['/'] ≠ [] := by simp
  rw [normCp_ne _ hne2, rstripChar_append_sep, rstripChar_joinSep '/' T hTne hTprops]
  simp

/-- The per-member exactness of the non-root path rewrite in
`split_json_by_folder`. -/
theorem folder_rewrite_exact (cp : Str) (level : Nat) (f : FileRec)
    (hcp : cp = [] ∨ wfRel cp) (hf : wfRel f.path) (hlevel : 0 < level)
    (hk : groupKeyOf (normCp cp) level f ≠ rootKey) :
    normCp (groupKeyOf (normCp cp) level f ++ ['/'])
      ++ (rewriteFile (normCp cp) (groupKeyOf (normCp cp) level f) f).path
      = normCp cp ++ f.path := by
  obtain ⟨hlev, hkey⟩ := groupKey_cases (normCp cp) level f hk
  obtain ⟨hprops, hne⟩ := partsOf_props cp f hcp hf
  have hTne : (partsOf (normCp cp) f).dropLast.take level ≠ [] := by
    intro h
    rcases List.take_eq_nil_iff.mp h with h | h
    · omega
    · rw [h] at hlev
      simp at hlev
      omega
  have hTprops : ∀ x ∈ (partsOf (normCp cp) f).dropLast.take level, x ≠ [] ∧ '/' ∉ x :=
    fun x hx => hprops x ((List.dropLast_sublist _).subset (List.take_subset _ _ hx))
  have hRne : (partsOf (normCp cp) f).dropLast.drop level
      ++ [(partsOf (normCp cp) f).getLast hne] ≠ [] := by simp
  have hRprops : ∀ x ∈ (partsOf (normCp cp) f).dropLast.drop level
      ++ [(partsOf (normCp cp) f).getLast hne], x ≠ [] ∧ '/' ∉ x := by
    intro x hx
    rw [List.mem_append] at hx
    rcases hx with hx | hx
    · exact hprops x ((List.dropLast_sublist _).subset (List.drop_subset _ _ hx))
    · rw [List.mem_singleton] at hx
      subst hx
      exact hprops _ (List.getLast_mem hne)
  have hsplit : partsOf (normCp cp) f
      = (partsOf (normCp cp) f).dropLast.take level
        ++ ((partsOf (normCp cp) f).dropLast.drop level
            ++ [(partsOf (normCp cp) f).getLast hne]) := by
    rw [← List.append_assoc, List.take_append_drop, List.dropLast_append_getLast]
  have hfull : normCp cp ++ f.path
      = joinSep '/' ((partsOf (normCp cp) f).dropLast.take level)
        ++ '/' :: joinSep '/' ((partsOf (normCp cp) f).dropLast.drop level
            ++ [(partsOf (normCp cp) f).getLast hne]) := by
    rw [fullPath_join cp f hcp hf]
    conv_lhs => rw [hsplit]
    exact joinSep_append '/' _ _ hTne hRne
  have hrew : (rewriteFile (normCp cp) (groupKeyOf (normCp cp) level f) f).path
      = lstripChar '/'
          ((normCp cp ++ f.path).drop (groupKeyOf (normCp cp) level f).length) := rfl
  rw [hrew, hkey, hfull]
  exact join_decomp_recon _ _ hTne hRne hTprops hRprops

theorem insertGroup_invariant (Q : Str → FileRec → Prop) (k : Str) (f : FileRec) :
    ∀ gs : List (Str × List FileRec),
      (∀ g ∈ gs, ∀ x ∈ g.2, Q g.1 x) → Q k f →
      ∀ g ∈ insertGroup k f gs, ∀ x ∈ g.2, Q g.1 x := by
  intro gs
  induction gs with
  | nil =>
    intro _ hf g hg x hx
    simp only [insertGroup, List.mem_singleton] at hg
    subst hg
    simp only [List.mem_singleton] at hx
    subst hx
    exact hf
  | cons g0 rest ih =>
    intro hgs hf g hg x hx
    obtain ⟨k2, fs⟩ := g0
    by_cases hk2 : k2 = k
    · simp only [insertGroup, if_pos hk2, List.mem_cons] at hg
      rcases hg with hg | hg
      · subst hg
        rw [List.mem_append] at hx
        rcases hx with hx | hx
        · exact hgs (k2, fs) (by simp) x hx
        · rw [List.mem_singleton] at hx
          subst hx
          exact hk2 ▸ hf
      · exact hgs g (List.mem_cons_of_mem _ hg) x hx
    · simp only [insertGroup, if_neg hk2, List.mem_cons] at hg
      rcases hg with hg | hg
      · subst hg
        exact hgs (k2, fs) (by simp) x hx
      · exact ih (fun g2 hg2 => hgs g2 (List.mem_cons_of_mem _ hg2)) hf g hg x hx

theorem foldl_insert_invariant (Q : Str → FileRec → Prop) (key : FileRec → Str) :
    ∀ (l : List FileRec) (gs : List (Str × List FileRec)),
      (∀ g ∈ gs, ∀ x ∈ g.2, Q g.1 x) → (∀ f ∈ l, Q (key f) f) →
      ∀ g ∈ l.foldl (fun gs f => insertGroup (key f) f gs) gs, ∀ x ∈ g.2, Q g.1 x := by
  intro l
  induction l with
  | nil =>
    intro gs hgs _
    simpa using hgs
  | cons f t ih =>
    intro gs hgs hl
    rw [List.foldl_cons]
    exact ih _ (insertGroup_invariant Q (key f) f gs hgs (hl f (by simp)))
      (fun x hx => hl x (List.mem_cons_of_mem f hx))

theorem groupFiles_invariant (Q : Str → FileRec → Prop) (key : FileRec → Str)
    (files : List FileRec) (h : ∀ f ∈ files, Q (key f) f) :
    ∀ g ∈ groupFiles key files, ∀ x ∈ g.2, Q g.1 x :=
  foldl_insert_invariant Q key files [] (by simp) h

theorem insertGroup_flatMap_perm (k : Str) (f : FileRec)
    (gs : List (Str × List FileRec)) :
    ((insertGroup k f gs).flatMap Prod.snd).Perm (gs.flatMap Prod.snd ++ [f]) := by
  induction gs with
  | nil =>
    simp only [insertGroup, List.flatMap_cons, List.flatMap_nil, List.nil_append,
      List.append_nil]
    exact List.Perm.refl _
  | cons g0 rest ih =>
    obtain ⟨k2, fs⟩ := g0
    by_cases hk2 : k2 = k
    · simp only [insertGroup, if_pos hk2, List.flatMap_cons]
      rw [show (fs ++ [f]) ++ rest.flatMap Prod.snd
          = fs ++ ([f] ++ rest.flatMap Prod.snd) from by rw [List.append_assoc]]
      rw [show (fs ++ rest.flatMap Prod.snd) ++ [f]
          = fs ++ (rest.flatMap Prod.snd ++ [f]) from by rw [List.append_assoc]]
      exact List.Perm.append_left fs List.perm_append_comm
    · simp only [insertGroup, if_neg hk2, List.flatMap_cons]
      rw [show (fs ++ rest.flatMap Prod.snd) ++ [f]
          = fs ++ (rest.flatMap Prod.snd ++ [f]) from by rw [List.append_assoc]]
      exact List.Perm.append_left fs ih

theorem foldl_insert_perm (key : FileRec → Str) :
    ∀ (l : List FileRec) (gs : List (Str × List FileRec)),
      ((l.foldl (fun gs f => insertGroup (key f) f gs) gs).flatMap Prod.snd).Perm
        (gs.flatMap Prod.snd ++ l) := by
  intro l
  induction l with
  | nil =>
    intro gs
    simp only [List.foldl_nil, List.append_nil]
    exact List.Perm.refl _
  | cons f t ih =>
    intro gs
    rw [List.foldl_cons]
    refine (ih (insertGroup (key f) f gs)).trans ?_
    refine ((insertGroup_flatMap_perm (key f) f gs).append_right t).trans ?_
    rw [List.append_assoc, List.singleton_append]

theorem groupFiles_flatMap_perm (key : FileRec → Str) (files : List FileRec) :
    ((groupFiles key files).flatMap Prod.snd).Perm files := by
  have h := foldl_insert_perm key files []
  simpa [groupFiles] using h

theorem flatMap_map_snd {γ : Type} (F : FileRec → γ) (gs : List (Str × List FileRec)) :
    gs.flatMap (fun g => g.2.map F) = (gs.flatMap Prod.snd).map F := by
  induction gs with
  | nil => rfl
  | cons g t ih => simp [List.flatMap_cons, List.map_append, ih]

/-- C2: for every document whose `commonPath` is empty or a well-formed
relative path and whose record paths are well-formed relative paths (the
spec's data model, §3), and every positive `level`, the chunks of
`split_json_by_folder` reproduce the original full-path multiset exactly:
collecting `(normalized commonPath + path, size, etag)` over all chunk
records is a permutation of the same collection over the input records — no
record is dropped and none is duplicated. -/
theorem c2_split_by_folder_preserves (d : JsonDoc) (level : Int) (hl : 0 < level)
    (hcp : d.commonPath = [] ∨ wfRel d.commonPath)
    (hf : ∀ f ∈ d.files, wfRel f.path) :
    ∃ chunks, split_json_by_folder d level = .ok chunks ∧
      (chunks.flatMap (fun c => c.files.map
          (fun f => (normCp c.commonPath ++ f.path, f.size, f.etag)))).Perm
        (d.files.map (fun f => (normCp d.commonPath ++ f.path, f.size, f.etag))) := by
  have hok : split_json_by_folder d level
      = .ok ((groupFiles (groupKeyOf (normCp d.commonPath) level.toNat) d.files).map
          (folderChunk d (normCp d.commonPath))) := by
    simp [split_json_by_folder, not_le.mpr hl]
  refine ⟨_, hok, ?_⟩
  rw [flatMap_map_eq]
  have hinv : ∀ g ∈ groupFiles (groupKeyOf (normCp d.commonPath) level.toNat) d.files,
      ∀ x ∈ g.2, groupKeyOf (normCp d.commonPath) level.toNat x = g.1 ∧ x ∈ d.files :=
    groupFiles_invariant
      (fun k x => groupKeyOf (normCp d.commonPath) level.toNat x = k ∧ x ∈ d.files)
      (groupKeyOf (normCp d.commonPath) level.toNat) d.files (fun f hfm => ⟨rfl, hfm⟩)
  have hcong : (groupFiles (groupKeyOf (normCp d.commonPath) level.toNat) d.files).flatMap
      (fun g => (folderChunk d (normCp d.commonPath) g).files.map
        (fun f => (normCp (folderChunk d (normCp d.commonPath) g).commonPath ++ f.path,
                   f.size, f.etag)))
      = (groupFiles (groupKeyOf (normCp d.commonPath) level.toNat) d.files).flatMap
          (fun g => g.2.map
            (fun f => (normCp d.commonPath ++ f.path, f.size, f.etag))) := by
    refine flatMap_congr_mem _ _ _ ?_
    intro g hg
    by_cases hroot : g.1 = rootKey
    · have hfiles : (folderChunk d (normCp d.commonPath) g).files = g.2 := by
        simp [folderChunk, hroot]
      have hcp2 : (folderChunk d (normCp d.commonPath) g).commonPath
          = normCp d.commonPath := by
        simp [folderChunk, hroot]
      rw [hfiles, hcp2, normCp_idem]
    · have hfiles : (folderChunk d (normCp d.commonPath) g).files
          = g.2.map (rewriteFile (normCp d.commonPath) g.1) := by
        simp [folderChunk, hroot]
      have hcp2 : (folderChunk d (normCp d.commonPath) g).commonPath
          = g.1 ++ ['/'] := by
        simp [folderChunk, hroot]
      rw [hfiles, hcp2, List.map_map]
      refine List.map_congr_left ?_
      intro x hx
      obtain ⟨hkx, hxd⟩ := hinv g hg x hx
      have hwf := hf x hxd
      have hlev : 0 < level.toNat := by omega
      have hk2 : groupKeyOf (normCp d.commonPath) level.toNat x ≠ rootKey := by
        rw [hkx]
        exact hroot
      have hex := folder_rewrite_exact d.commonPath level.toNat x hcp hwf hlev hk2
      rw [hkx] at hex
      simp only [Function.comp_apply]
      show (normCp (g.1 ++ ['/'])
            ++ (rewriteFile (normCp d.commonPath) g.1 x).path,
          (rewriteFile (normCp d.commonPath) g.1 x).size,
          (rewriteFile (normCp d.commonPath) g.1 x).etag)
        = (normCp d.commonPath ++ x.path, x.size, x.etag)
      rw [hex]
      rfl
  rw [hcong, flatMap_map_snd]
  exact (groupFiles_flatMap_perm _ _).map _

/-- C2 witness: a document with common path `dir` and records at two depths,
split at level 1. -/
theorem c2_witness :
    (0 : Int) < 1 ∧
    (("dir".toList : Str) = [] ∨ wfRel "dir".toList) ∧
    (∀ f ∈ [(⟨"sub/a.txt".toList, "1".toList, "E".toList⟩ : FileRec),
            ⟨"b.txt".toList, "2".toList, "F".toList⟩], wfRel f.path) ∧
    ∃ chunks,
      split_json_by_folder
        { files := [⟨"sub/a.txt".toList, "1".toList, "E".toList⟩,
                    ⟨"b.txt".toList, "2".toList, "F".toList⟩],
          totalFilesCount := 2, totalSize := 3, commonPath := "dir".toList,
          formattedTotalSize := none, extra := [] } 1 = .ok chunks ∧
      (chunks.flatMap (fun c => c.files.map
          (fun f => (normCp c.commonPath ++ f.path, f.size, f.etag)))).Perm
        ([(⟨"sub/a.txt".toList, "1".toList, "E".toList⟩ : FileRec),
          ⟨"b.txt".toList, "2".toList, "F".toList⟩].map
          (fun f => (normCp "dir".toList ++ f.path, f.size, f.etag))) :=
  ⟨by decide, by decide, by decide,
    c2_split_by_folder_preserves
      { files := [⟨"sub/a.txt".toList, "1".toList, "E".toList⟩,
                  ⟨"b.txt".toList, "2".toList, "F".toList⟩],
        totalFilesCount := 2, totalSize := 3, commonPath := "dir".toList,
        formattedTotalSize := none, extra := [] } 1 (by decide) (by decide) (by decide)⟩

end LinkJson
